import Mathlib

/-!
Shallow embedding of the `Collection<K, V>` class from `src/index.ts`
(an insertion-ordered map extending JS `Map`, with two lazily cached
positional views `_array` and `_keyArray`), together with theorems
checking the natural-language specification against it.

The JS `Map` backing store is modelled as an insertion-ordered
association list `entries : List (K × V)`; the two private cache fields
are modelled as `Option` fields of the same record.  Stateful methods
become functions `Collection K V → Collection K V` (or returning a pair
when the method also yields a result); `Math.random()` is modelled by an
ambient stream `rand : Nat → Nat` of picks, reduced into range with `%`,
exactly covering every sequence of in-range indices the JS code can
draw.  The single `TypeError` thrown by `reduce` is modelled by an
explicit error type (the spec's "InvalidOperation").
-/

namespace CollectionSpec

/-- State of a `Collection<K, V>` instance: the ordered entries of the
underlying `Map`, plus the two private cache fields, `null` ↦ `none`. -/
structure Collection (K V : Type) where
  entries : List (K × V)
  _array : Option (List V)
  _keyArray : Option (List K)
deriving DecidableEq, Repr

namespace Collection

variable {K V : Type} [DecidableEq K] [DecidableEq V]

/-- `[...this.values()]`: the values in insertion order. -/
def values (s : Collection K V) : List V :=
  s.entries.map Prod.snd

/-- `[...this.keys()]`: the keys in insertion order. -/
def keysList (s : Collection K V) : List K :=
  s.entries.map Prod.fst

/-- `this.size` of the underlying `Map`. -/
def size (s : Collection K V) : Nat :=
  s.entries.length

/-- `super.has(key)` on the ordered backing store. -/
def hasK (s : Collection K V) (k : K) : Bool :=
  s.entries.any (fun kv => kv.1 = k)

/-- `super.get(key)`: `undefined` ↦ `none`. -/
def getV (s : Collection K V) (k : K) : Option V :=
  (s.entries.find? (fun kv => kv.1 = k)).map Prod.snd

/-- `new Collection()` — the constructor sets both caches to `null`. -/
def emptyC (K V : Type) : Collection K V :=
  ⟨[], none, none⟩

/-- `Map.set` on the ordered entry list: updating an existing key keeps
its position (and original key object), a new key is appended. -/
def setEntries (l : List (K × V)) (k : K) (v : V) : List (K × V) :=
  match l with
  | [] => [(k, v)]
  | kv :: t => if kv.1 = k then (kv.1, v) :: t else kv :: setEntries t k v

/-- `set(key, value)`: nulls both caches, then `super.set`. -/
def set (s : Collection K V) (k : K) (v : V) : Collection K V :=
  ⟨setEntries s.entries k v, none, none⟩

/-- `Map.delete` on the ordered entry list (removes the entry, if any). -/
def eraseEntry (l : List (K × V)) (k : K) : List (K × V) :=
  match l with
  | [] => []
  | kv :: t => if kv.1 = k then t else kv :: eraseEntry t k

/-- `delete(key)`: nulls both caches, then `super.delete`.  (The JS
method also returns whether an entry was removed, i.e. `hasK s k`;
no claim depends on that Boolean, so only the state is modelled.) -/
def delete (s : Collection K V) (k : K) : Collection K V :=
  ⟨eraseEntry s.entries k, none, none⟩

/-- `clear()`: `return super.clear()` — note the source does NOT touch
`_array` / `_keyArray` here, so the caches survive unchanged. -/
def clear (s : Collection K V) : Collection K V :=
  { s with entries := [] }

/-- `array()`: rebuild the cache unless it is non-null with length equal
to `size` (`this._array?.length !== this.size`), then return it. -/
def array (s : Collection K V) : Collection K V × List V :=
  match s._array with
  | some l =>
      if l.length = s.entries.length then (s, l)
      else ({ s with _array := some s.values }, s.values)
  | none => ({ s with _array := some s.values }, s.values)

/-- `keyArray()`: symmetric to `array()`, over keys. -/
def keyArray (s : Collection K V) : Collection K V × List K :=
  match s._keyArray with
  | some l =>
      if l.length = s.entries.length then (s, l)
      else ({ s with _keyArray := some s.keysList }, s.keysList)
  | none => ({ s with _keyArray := some s.keysList }, s.keysList)

/-- `sweep(fn)`: iterates the map, calling `this.delete(key)` on every
entry whose `(value, key)` satisfies `fn`.  Each such `delete` nulls
both caches; when no entry matches, `delete` is never called and the
caches are left untouched.  (The JS method returns the removed count;
no claim depends on it, so only the state is modelled.) -/
def sweep (s : Collection K V) (fn : V → K → Bool) : Collection K V :=
  if s.entries.any (fun kv => fn kv.2 kv.1) then
    ⟨s.entries.filter (fun kv => !fn kv.2 kv.1), none, none⟩
  else s

/-- One step of `Array.prototype.sort`'s stable ordering: insert `a`
before the first element `b` with `le a b` (JS sorts stably so that an
element precedes another exactly when the comparator is ≤ 0). -/
def orderedInsertB (le : α → α → Bool) (a : α) : List α → List α
  | [] => [a]
  | b :: l => if le a b then a :: b :: l else b :: orderedInsertB le a l

/-- Stable sort by a Boolean "may precede" relation; for a consistent
comparator this is the unique stable order `Array.prototype.sort`
(a stable sort since ES2019) produces. -/
def insertionSortB (le : α → α → Bool) : List α → List α
  | [] => []
  | a :: l => orderedInsertB le a (insertionSortB le l)

/-- The source's default comparator
`(x, y) => Number(x > y) || Number(x === y) - 1`:
`1` if `x > y`, `0` if `x === y`, else `-1`. -/
def defaultCmp [LinearOrder V] (x y : V) : Int :=
  if x > y then 1 else if x = y then 0 else -1

/-- `sort(compareFunction)`: read `[...this.entries()]`, stably sort
them with the comparator over `(value, key)` pairs, then
`super.clear()`, null both caches, and `super.set` the sorted entries
back (with unique keys this reload reproduces the sorted list). -/
def sortC (s : Collection K V) (cmp : V → V → K → K → Int) : Collection K V :=
  ⟨insertionSortB (fun a b => cmp a.2 b.2 a.1 b.1 ≤ 0) s.entries, none, none⟩

/-- `sort()` with the default comparator. -/
def sortDefault [LinearOrder V] (s : Collection K V) : Collection K V :=
  s.sortC (fun x y _ _ => defaultCmp x y)

/-- The operations of the claims' "any sequence of operations":
mutations `set`/`delete`/`clear`/`sweep`/`sort` plus the two cache
reads `array()` / `keyArray()` (reads mutate the cache fields too). -/
inductive Op (K V : Type) where
  | setOp (k : K) (v : V)
  | delOp (k : K)
  | clearOp
  | sweepOp (fn : V → K → Bool)
  | sortOp (cmp : V → V → K → K → Int)
  | readArrayOp
  | readKeyArrayOp

/-- Apply one operation to the collection state. -/
def applyOp (s : Collection K V) : Op K V → Collection K V
  | .setOp k v => s.set k v
  | .delOp k => s.delete k
  | .clearOp => s.clear
  | .sweepOp fn => s.sweep fn
  | .sortOp cmp => s.sortC cmp
  | .readArrayOp => s.array.1
  | .readKeyArrayOp => s.keyArray.1

/-- Run a sequence of operations from a starting state. -/
def run (ops : List (Op K V)) (s : Collection K V) : Collection K V :=
  ops.foldl applyOp s

/-- The `Array.from({length}, () => arr.splice(floor(random()*len), 1)[0])`
sampling loop of `random(n)`/`randomKey(n)`: at step `t` remove and keep
the element at index `rand t % length` of the private working copy. -/
def sample (rand : Nat → Nat) : Nat → Nat → List α → List α
  | _, 0, _ => []
  | t, n + 1, l =>
      if h : 0 < l.length then
        l.get ⟨rand t % l.length, Nat.mod_lt _ h⟩ ::
          sample rand (t + 1) n (l.eraseIdx (rand t % l.length))
      else []

/-- `random(amount)`: take the value view (possibly rebuilding the
cache), return `[]` if the view is empty or `amount` is `0`, else
sample `min(amount, length)` elements without replacement from a
private copy. -/
def random (s : Collection K V) (rand : Nat → Nat) (amount : Nat) :
    Collection K V × List V :=
  let p := s.array
  if p.2.length = 0 ∨ amount = 0 then (p.1, [])
  else (p.1, sample rand 0 (min amount p.2.length) p.2)

/-- `randomKey(amount)`: symmetric to `random(amount)`, over keys. -/
def randomKey (s : Collection K V) (rand : Nat → Nat) (amount : Nat) :
    Collection K V × List K :=
  let p := s.keyArray
  if p.2.length = 0 ∨ amount = 0 then (p.1, [])
  else (p.1, sample rand 0 (min amount p.2.length) p.2)

/-- `random()` with no argument: `arr[Math.floor(Math.random() * arr.length)]`
— an index in range when the view is non-empty, the out-of-bounds read
`arr[0]` (= `undefined`, here `none`) when it is empty. -/
def randomNoArg (s : Collection K V) (rand : Nat) : Collection K V × Option V :=
  let p := s.array
  (p.1, p.2.get? (if p.2.length = 0 then 0 else rand % p.2.length))

/-- `randomKey()` with no argument: symmetric, over keys. -/
def randomKeyNoArg (s : Collection K V) (rand : Nat) : Collection K V × Option K :=
  let p := s.keyArray
  (p.1, p.2.get? (if p.2.length = 0 then 0 else rand % p.2.length))

end Collection

/-- The error taxonomy of the spec: the one error the core raises is
"InvalidOperation", realised in the source as
`throw new TypeError('Reduce of empty collection with no initial value')`. -/
inductive JSError where
  | invalidOperation (msg : String)
deriving DecidableEq, Repr

namespace Collection

variable {K V : Type} [DecidableEq K] [DecidableEq V]

/-- The `reduce` loop without an initial value: the `first` flag is
`true` exactly while the accumulator is still unset (`none`). -/
def reduceAux (fn : V → V → K → V) : List (K × V) → Option V → Option V
  | [], acc => acc
  | kv :: rest, none => reduceAux fn rest (some kv.2)
  | kv :: rest, some a => reduceAux fn rest (some (fn a kv.2 kv.1))

/-- `reduce(fn, initialValue?)` (instantiated at accumulator type `V`,
the type the no-initial branch forces): with an initial value, a plain
left fold over insertion order; without one, the flag loop, throwing
when no item was iterated. -/
def reduce (s : Collection K V) (fn : V → V → K → V) (initialValue : Option V) :
    Except JSError V :=
  match initialValue with
  | some a => Except.ok (s.entries.foldl (fun acc kv => fn acc kv.2 kv.1) a)
  | none =>
      match reduceAux fn s.entries none with
      | none =>
          Except.error (JSError.invalidOperation
            "Reduce of empty collection with no initial value")
      | some acc => Except.ok acc

/-- `equals(collection)`: `false` on `null`/`undefined`
(modelled by the `Option` argument), `true` on the receiver itself
(reference identity implies state equality, modelled structurally),
`false` on size mismatch, else every entry of the receiver must be
present in the other with a strictly-equal value. -/
def equals (s : Collection K V) (other : Option (Collection K V)) : Bool :=
  match other with
  | none => false
  | some o =>
      if s = o then true
      else if s.entries.length ≠ o.entries.length then false
      else s.entries.all (fun kv => o.hasK kv.1 && (o.getV kv.1 == some kv.2))

/-- `new this.constructor[Symbol.species](entries)`: the `Map`
constructor replays the pairs through `set` (fresh caches, last value
wins, first position wins). -/
def ofList (l : List (K × V)) : Collection K V :=
  l.foldl (fun s kv => s.set kv.1 kv.2) (emptyC K V)

/-- `clone()`: a species-construction from the receiver's entries. -/
def clone (s : Collection K V) : Collection K V :=
  ofList s.entries

/-- `concat(...collections)`: clone the receiver, then `set` every
entry of every argument in order. -/
def concat (s : Collection K V) (others : List (Collection K V)) : Collection K V :=
  others.foldl (fun acc o => o.entries.foldl (fun a kv => a.set kv.1 kv.2) acc) s.clone

/-- `filter(fn)`: a fresh species construction receiving, via `set`,
every entry whose `(value, key)` satisfies the predicate, in order. -/
def filterC (s : Collection K V) (fn : V → K → Bool) : Collection K V :=
  s.entries.foldl
    (fun acc kv => if fn kv.2 kv.1 then acc.set kv.1 kv.2 else acc)
    (emptyC K V)

/-- `difference(other)`:
`other.filter((_, k) => !this.has(k)).concat(this.filter((_, k) => !other.has(k)))`. -/
def difference (s other : Collection K V) : Collection K V :=
  (other.filterC (fun _ k => !s.hasK k)).concat
    [s.filterC (fun _ k => !other.hasK k)]

/-- The value cache, when present and passing the `length === size`
validity test of `array()`, holds exactly the current values. -/
def coherentA (s : Collection K V) : Prop :=
  ∀ l, s._array = some l → l.length = s.entries.length → l = s.values

/-- Symmetric coherence for the key cache. -/
def coherentK (s : Collection K V) : Prop :=
  ∀ l, s._keyArray = some l → l.length = s.entries.length → l = s.keysList

/-- Both caches are coherent with the current entries. -/
def Coherent (s : Collection K V) : Prop :=
  coherentA s ∧ coherentK s

theorem coherentA_of_none {s : Collection K V} (h : s._array = none) : coherentA s := by
  intro l hl
  rw [h] at hl
  exact absurd hl (by simp)

theorem coherentK_of_none {s : Collection K V} (h : s._keyArray = none) : coherentK s := by
  intro l hl
  rw [h] at hl
  exact absurd hl (by simp)

theorem coherent_emptyC : Coherent (emptyC K V) :=
  ⟨coherentA_of_none rfl, coherentK_of_none rfl⟩

theorem coherent_clear (s : Collection K V) : Coherent s.clear := by
  constructor
  · intro l hl hlen
    simp only [clear] at hl hlen
    simp only [values, clear]
    simpa using List.length_eq_zero.mp hlen
  · intro l hl hlen
    simp only [clear] at hl hlen
    simp only [keysList, clear]
    simpa using List.length_eq_zero.mp hlen

theorem array_fst_entries (s : Collection K V) : s.array.1.entries = s.entries := by
  unfold array
  rcases s._array with _ | l0
  · rfl
  · dsimp only
    by_cases hc : l0.length = s.entries.length
    · rw [if_pos hc]
    · rw [if_neg hc]

theorem keyArray_fst_entries (s : Collection K V) : s.keyArray.1.entries = s.entries := by
  unfold keyArray
  rcases s._keyArray with _ | l0
  · rfl
  · dsimp only
    by_cases hc : l0.length = s.entries.length
    · rw [if_pos hc]
    · rw [if_neg hc]

theorem coherent_array_fst {s : Collection K V} (h : Coherent s) : Coherent s.array.1 := by
  unfold array
  rcases hs : s._array with _ | l0
  · refine ⟨?_, h.2⟩
    intro l hl _
    have hsome : some s.values = some l := hl
    exact (Option.some.inj hsome).symm
  · dsimp only
    by_cases hc : l0.length = s.entries.length
    · rw [if_pos hc]
      exact h
    · rw [if_neg hc]
      refine ⟨?_, h.2⟩
      intro l hl _
      have hsome : some s.values = some l := hl
      exact (Option.some.inj hsome).symm

theorem coherent_keyArray_fst {s : Collection K V} (h : Coherent s) : Coherent s.keyArray.1 := by
  unfold keyArray
  rcases hs : s._keyArray with _ | l0
  · refine ⟨h.1, ?_⟩
    intro l hl _
    have hsome : some s.keysList = some l := hl
    exact (Option.some.inj hsome).symm
  · dsimp only
    by_cases hc : l0.length = s.entries.length
    · rw [if_pos hc]
      exact h
    · rw [if_neg hc]
      refine ⟨h.1, ?_⟩
      intro l hl _
      have hsome : some s.keysList = some l := hl
      exact (Option.some.inj hsome).symm

theorem coherent_applyOp {s : Collection K V} (h : Coherent s) (op : Op K V) :
    Coherent (s.applyOp op) := by
  cases op with
  | setOp k v => exact ⟨coherentA_of_none rfl, coherentK_of_none rfl⟩
  | delOp k => exact ⟨coherentA_of_none rfl, coherentK_of_none rfl⟩
  | clearOp => exact coherent_clear s
  | sweepOp fn =>
      show Coherent (s.sweep fn)
      unfold sweep
      split
      · exact ⟨coherentA_of_none rfl, coherentK_of_none rfl⟩
      · exact h
  | sortOp cmp => exact ⟨coherentA_of_none rfl, coherentK_of_none rfl⟩
  | readArrayOp => exact coherent_array_fst h
  | readKeyArrayOp => exact coherent_keyArray_fst h

theorem coherent_run {s : Collection K V} (h : Coherent s) (ops : List (Op K V)) :
    Coherent (run ops s) := by
  induction ops generalizing s with
  | nil => exact h
  | cons op rest ih => exact ih (coherent_applyOp h op)

/-- Under coherence, `array()` returns exactly the fresh value view. -/
theorem array_snd_of_coherent {s : Collection K V} (h : coherentA s) :
    s.array.2 = s.values := by
  unfold array
  rcases hs : s._array with _ | l0
  · simp
  · by_cases hc : l0.length = s.entries.length
    · simpa [hc] using h l0 hs hc
    · simp [hc]

/-- Under coherence, `keyArray()` returns exactly the fresh key view. -/
theorem keyArray_snd_of_coherent {s : Collection K V} (h : coherentK s) :
    s.keyArray.2 = s.keysList := by
  unfold keyArray
  rcases hs : s._keyArray with _ | l0
  · simp
  · by_cases hc : l0.length = s.entries.length
    · simpa [hc] using h l0 hs hc
    · simp [hc]

/-- A real `Map` state: at most one entry per key (spec invariant 1,
maintained automatically by the JS `Map` backing store). -/
abbrev KeysNodup (l : List (K × V)) : Prop :=
  (l.map Prod.fst).Nodup

theorem array_snd_of_entries_nil {s : Collection K V} (h : s.entries = []) :
    s.array.2 = [] := by
  unfold array
  rcases s._array with _ | l0
  · simp [values, h]
  · dsimp only
    by_cases hc : l0.length = s.entries.length
    · rw [if_pos hc]
      rw [h] at hc
      exact List.length_eq_zero.mp hc
    · rw [if_neg hc]
      simp [values, h]

theorem keyArray_snd_of_entries_nil {s : Collection K V} (h : s.entries = []) :
    s.keyArray.2 = [] := by
  unfold keyArray
  rcases s._keyArray with _ | l0
  · simp [keysList, h]
  · dsimp only
    by_cases hc : l0.length = s.entries.length
    · rw [if_pos hc]
      rw [h] at hc
      exact List.length_eq_zero.mp hc
    · rw [if_neg hc]
      simp [keysList, h]

end Collection

end CollectionSpec

namespace CollectionSpec

namespace Collection

variable {K V : Type} [DecidableEq K] [DecidableEq V]

/-- C1: after any sequence of operations on a collection (mutations
`set`/`delete`/`sweep`/`sort`/`clear` and cache-reading view calls in
any interleaving, starting from a fresh collection), a call to the
value view `array()` returns a list whose length is the current `size`
and whose content is the fresh derivation of the values from the
current entries in insertion order, and likewise `keyArray()` for the
keys. -/
theorem cache_coherence_after_any_ops (ops : List (Op K V)) :
    ((run ops (emptyC K V)).array.2.length = (run ops (emptyC K V)).size ∧
      (run ops (emptyC K V)).array.2 = (run ops (emptyC K V)).values) ∧
    ((run ops (emptyC K V)).keyArray.2.length = (run ops (emptyC K V)).size ∧
      (run ops (emptyC K V)).keyArray.2 = (run ops (emptyC K V)).keysList) := by
  have hcoh := coherent_run coherent_emptyC ops
  have ha := array_snd_of_coherent hcoh.1
  have hk := keyArray_snd_of_coherent hcoh.2
  refine ⟨⟨?_, ha⟩, ?_, hk⟩
  · rw [ha]
    simp [values, size]
  · rw [hk]
    simp [keysList, size]

/-- C2: evaluating the code on a concrete run — after `set(1, 10)`,
`array()`, `keyArray()`, `clear()` — shows `clear()` empties the
entries (size becomes 0) but leaves both cached snapshots populated
(`_array = [10]`, `_keyArray = [1]`) instead of resetting them: the
code contradicts the spec's explicit requirement ("Must also reset
both snapshots"). -/
theorem clear_does_not_reset_snapshots :
    run [Op.setOp 1 10, Op.readArrayOp, Op.readKeyArrayOp, Op.clearOp] (emptyC Nat Nat) =
      ⟨[], some [10], some [1]⟩ := by
  decide

/-- C8: on an empty collection, `random()` with no argument returns
the absent value (`undefined`, modelled `none`) rather than raising,
and likewise `randomKey()`; both are total on empty input. -/
theorem random_noarg_empty_returns_absent (s : Collection K V) (rand : Nat)
    (h : s.entries = []) :
    (s.randomNoArg rand).2 = none ∧ (s.randomKeyNoArg rand).2 = none := by
  constructor
  · show (s.array.2.get? _) = none
    rw [array_snd_of_entries_nil h]
    rfl
  · show (s.keyArray.2.get? _) = none
    rw [keyArray_snd_of_entries_nil h]
    rfl

/-- Witness for C8 at the concrete empty collection. -/
theorem random_noarg_empty_returns_absent_witness :
    (emptyC Nat Nat).entries = [] ∧
      ((emptyC Nat Nat).randomNoArg 7).2 = none ∧
      ((emptyC Nat Nat).randomKeyNoArg 7).2 = none :=
  ⟨rfl, (random_noarg_empty_returns_absent (emptyC Nat Nat) 7 rfl).1,
    (random_noarg_empty_returns_absent (emptyC Nat Nat) 7 rfl).2⟩

/-- C9: `equals` called with `null`/`undefined` (the `none` argument)
returns `false` for every collection, without raising. -/
theorem equals_null_is_false (a : Collection K V) : a.equals none = false :=
  rfl

theorem reduceAux_some (fn : V → V → K → V) (l : List (K × V)) (a : V) :
    reduceAux fn l (some a) =
      some (l.foldl (fun acc kv => fn acc kv.2 kv.1) a) := by
  induction l generalizing a with
  | nil => rfl
  | cons kv rest ih => exact ih (fn a kv.2 kv.1)

/-- C3: `reduce(fn)` on an empty collection raises the InvalidOperation
error with the source's message; `reduce(fn, initial)` on an empty
collection returns `initial`; and on a non-empty collection with no
initial value, the first entry's value seeds the accumulator and the
left fold runs over the remaining entries in insertion order. -/
theorem reduce_spec (s : Collection K V) (fn : V → V → K → V) :
    (s.entries = [] →
      s.reduce fn none =
          Except.error (JSError.invalidOperation
            "Reduce of empty collection with no initial value") ∧
        ∀ a, s.reduce fn (some a) = Except.ok a) ∧
    ∀ k0 v0 rest, s.entries = (k0, v0) :: rest →
      s.reduce fn none =
        Except.ok (rest.foldl (fun acc kv => fn acc kv.2 kv.1) v0) := by
  constructor
  · intro h
    constructor
    · unfold reduce
      rw [h]
      rfl
    · intro a
      unfold reduce
      rw [h]
      rfl
  · intro k0 v0 rest h
    unfold reduce
    rw [h]
    show (match reduceAux fn ((k0, v0) :: rest) none with
      | none => Except.error (JSError.invalidOperation
          "Reduce of empty collection with no initial value")
      | some acc => Except.ok acc) = _
    rw [show reduceAux fn ((k0, v0) :: rest) none
        = reduceAux fn rest (some v0) from rfl]
    rw [reduceAux_some]

theorem hasK_eq_isSome_getV (s : Collection K V) (k : K) :
    s.hasK k = (s.getV k).isSome := by
  unfold hasK getV
  induction s.entries with
  | nil => rfl
  | cons kv t ih =>
      by_cases h : kv.1 = k
      · simp [List.any_cons, List.find?_cons, h]
      · simp only [List.any_cons, List.find?_cons, h, decide_False,
          Bool.false_or, decide_false_eq_false]
        simpa using ih

theorem find?_key_of_nodup {l : List (K × V)} (h : KeysNodup l) {kv : K × V}
    (hm : kv ∈ l) : l.find? (fun x => x.1 = kv.1) = some kv := by
  induction l with
  | nil => cases hm
  | cons x t ih =>
      rw [KeysNodup, List.map_cons, List.nodup_cons] at h
      rcases List.mem_cons.mp hm with rfl | hmt
      · simp [List.find?_cons]
      · by_cases hx : x.1 = kv.1
        · exact absurd (hx ▸ List.mem_map.mpr ⟨kv, hmt, rfl⟩) h.1
        · simp only [List.find?_cons, decide_eq_false hx]
          exact ih h.2 hmt

theorem getV_of_mem {s : Collection K V} (h : KeysNodup s.entries) {kv : K × V}
    (hm : kv ∈ s.entries) : s.getV kv.1 = some kv.2 := by
  unfold getV
  rw [find?_key_of_nodup h hm]
  rfl

/-- C5: `a.equals(b)` is `true` exactly when the sizes agree and every
key of `a` is mapped by `b` to an equal value — a characterisation that
depends only on the key-value maps, hence is insertion-order
independent — and concretely
`{(1,"a"),(2,"b")}.equals({(2,"b"),(1,"a")})` is `true`. -/
theorem equals_spec (a b : Collection K V) (ha : KeysNodup a.entries) :
    (a.equals (some b) = true ↔
      (a.size = b.size ∧ ∀ kv ∈ a.entries, b.getV kv.1 = some kv.2)) ∧
    equals (⟨[(1, "a"), (2, "b")], none, none⟩ : Collection Nat String)
      (some ⟨[(2, "b"), (1, "a")], none, none⟩) = true := by
  refine ⟨?_, by decide⟩
  unfold equals
  dsimp only
  by_cases hab : a = b
  · subst hab
    rw [if_pos rfl]
    constructor
    · intro _
      exact ⟨rfl, fun kv hkv => getV_of_mem ha hkv⟩
    · intro _
      rfl
  · rw [if_neg hab]
    by_cases hlen : a.entries.length ≠ b.entries.length
    · rw [if_pos hlen]
      constructor
      · intro hfalse
        cases hfalse
      · rintro ⟨hsz, -⟩
        exact absurd hsz hlen
    · rw [if_neg hlen]
      push_neg at hlen
      rw [List.all_eq_true]
      constructor
      · intro hall
        refine ⟨hlen, fun kv hkv => ?_⟩
        have h2 := (Bool.and_eq_true _ _ |>.mp (hall kv hkv)).2
        rwa [beq_iff_eq] at h2
      · rintro ⟨-, hget⟩ kv hkv
        rw [Bool.and_eq_true]
        refine ⟨?_, by rw [beq_iff_eq]; exact hget kv hkv⟩
        rw [hasK_eq_isSome_getV, hget kv hkv]
        rfl

/-- Witness for C5 at the order-swapped concrete pair. -/
theorem equals_spec_witness :
    KeysNodup ([(1, "a"), (2, "b")] : List (Nat × String)) ∧
      ((⟨[(1, "a"), (2, "b")], none, none⟩ : Collection Nat String).equals
          (some ⟨[(2, "b"), (1, "a")], none, none⟩) = true ↔
        ((⟨[(1, "a"), (2, "b")], none, none⟩ : Collection Nat String).size =
            (⟨[(2, "b"), (1, "a")], none, none⟩ : Collection Nat String).size ∧
          ∀ kv ∈ ([(1, "a"), (2, "b")] : List (Nat × String)),
            (⟨[(2, "b"), (1, "a")], none, none⟩ : Collection Nat String).getV kv.1 =
              some kv.2)) :=
  ⟨by decide, (equals_spec _ _ (by decide)).1⟩

/-- Witness for C3: the empty-collection branches and a concrete
two-entry fold `(2 + 3 = 5)`. -/
theorem reduce_spec_witness :
    (emptyC Nat Nat).entries = [] ∧
      (emptyC Nat Nat).reduce (fun a b _ => a + b) none =
        Except.error (JSError.invalidOperation
          "Reduce of empty collection with no initial value") ∧
      (emptyC Nat Nat).reduce (fun a b _ => a + b) (some 0) = Except.ok 0 ∧
      (⟨[(1, 2), (2, 3)], none, none⟩ : Collection Nat Nat).reduce
        (fun a b _ => a + b) none = Except.ok 5 :=
  ⟨rfl,
    ((reduce_spec (emptyC Nat Nat) (fun a b _ => a + b)).1 rfl).1,
    ((reduce_spec (emptyC Nat Nat) (fun a b _ => a + b)).1 rfl).2 0,
    (reduce_spec (⟨[(1, 2), (2, 3)], none, none⟩ : Collection Nat Nat)
      (fun a b _ => a + b)).2 1 2 [(2, 3)] rfl⟩

theorem hasK_true_iff (s : Collection K V) (k : K) :
    s.hasK k = true ↔ ∃ kv ∈ s.entries, kv.1 = k := by
  unfold hasK
  simp [List.any_eq_true]

theorem hasK_false_iff (s : Collection K V) (k : K) :
    s.hasK k = false ↔ ∀ kv ∈ s.entries, kv.1 ≠ k := by
  unfold hasK
  simp [List.any_eq_false]

theorem setEntries_append {l : List (K × V)} {k : K} (h : ∀ kv ∈ l, kv.1 ≠ k) (v : V) :
    setEntries l k v = l ++ [(k, v)] := by
  induction l with
  | nil => rfl
  | cons x t ih =>
      have hx : x.1 ≠ k := h x (List.mem_cons_self x t)
      simp [setEntries, hx, ih (fun kv hkv => h kv (List.mem_cons_of_mem x hkv))]

theorem set_entries_of_not_has {s : Collection K V} {k : K} (h : s.hasK k = false) (v : V) :
    (s.set k v).entries = s.entries ++ [(k, v)] :=
  setEntries_append ((hasK_false_iff s k).mp h) v

theorem hasK_set {s : Collection K V} {k k0 : K} {v0 : V} (h : s.hasK k0 = false) :
    (s.set k0 v0).hasK k = (s.hasK k || decide (k0 = k)) := by
  unfold hasK
  rw [show (s.set k0 v0).entries = s.entries ++ [(k0, v0)] from set_entries_of_not_has h v0]
  simp [List.any_append]

theorem entries_foldl_set (l : List (K × V)) (s : Collection K V)
    (hl : KeysNodup l) (hdisj : ∀ kv ∈ l, s.hasK kv.1 = false) :
    (l.foldl (fun a kv => a.set kv.1 kv.2) s).entries = s.entries ++ l := by
  induction l generalizing s with
  | nil => simp
  | cons x t ih =>
      rw [KeysNodup, List.map_cons, List.nodup_cons] at hl
      have hxs : s.hasK x.1 = false := hdisj x (List.mem_cons_self x t)
      have hdisj2 : ∀ kv ∈ t, (s.set x.1 x.2).hasK kv.1 = false := by
        intro kv hkv
        rw [hasK_set hxs]
        have h1 : s.hasK kv.1 = false := hdisj kv (List.mem_cons_of_mem x hkv)
        have h2 : x.1 ≠ kv.1 := by
          intro hcontra
          exact hl.1 (hcontra ▸ List.mem_map.mpr ⟨kv, hkv, rfl⟩)
        simp [h1, h2]
      rw [List.foldl_cons, ih (s.set x.1 x.2) hl.2 hdisj2,
        set_entries_of_not_has hxs x.2]
      simp

theorem hasK_emptyC (k : K) : (emptyC K V).hasK k = false :=
  rfl

theorem ofList_entries (l : List (K × V)) (h : KeysNodup l) : (ofList l).entries = l := by
  unfold ofList
  rw [entries_foldl_set l (emptyC K V) h (fun kv _ => hasK_emptyC kv.1)]
  rfl

theorem clone_entries {s : Collection K V} (h : KeysNodup s.entries) :
    s.clone.entries = s.entries :=
  ofList_entries s.entries h

theorem foldl_set_array (l : List (K × V)) (s : Collection K V) (h : s._array = none) :
    (l.foldl (fun a kv => a.set kv.1 kv.2) s)._array = none := by
  induction l generalizing s with
  | nil => exact h
  | cons x t ih => exact ih (s.set x.1 x.2) rfl

theorem foldl_set_keyArray (l : List (K × V)) (s : Collection K V)
    (h : s._keyArray = none) :
    (l.foldl (fun a kv => a.set kv.1 kv.2) s)._keyArray = none := by
  induction l generalizing s with
  | nil => exact h
  | cons x t ih => exact ih (s.set x.1 x.2) rfl

/-- C10: `concat()` with zero arguments is exactly `clone()` — a new
collection with the receiver's entries in the receiver's insertion
order (and fresh, absent caches); the receiver is not mutated (the
model is pure: `concat` builds its result from a species-constructed
copy and never writes the receiver). -/
theorem concat_nil_is_clone (c : Collection K V) (h : KeysNodup c.entries) :
    c.concat [] = c.clone ∧ (c.concat []).entries = c.entries ∧
      (c.concat [])._array = none ∧ (c.concat [])._keyArray = none := by
  refine ⟨rfl, ?_, ?_, ?_⟩
  · exact clone_entries h
  · exact foldl_set_array c.entries (emptyC K V) rfl
  · exact foldl_set_keyArray c.entries (emptyC K V) rfl

/-- Witness for C10 at a two-entry collection with a populated cache. -/
theorem concat_nil_is_clone_witness :
    KeysNodup ([(1, 10), (2, 20)] : List (Nat × Nat)) ∧
      ((⟨[(1, 10), (2, 20)], some [10, 20], none⟩ : Collection Nat Nat).concat [] =
          (⟨[(1, 10), (2, 20)], some [10, 20], none⟩ : Collection Nat Nat).clone ∧
        ((⟨[(1, 10), (2, 20)], some [10, 20], none⟩ : Collection Nat Nat).concat
              []).entries = [(1, 10), (2, 20)] ∧
        ((⟨[(1, 10), (2, 20)], some [10, 20], none⟩ : Collection Nat Nat).concat
              [])._array = none ∧
        ((⟨[(1, 10), (2, 20)], some [10, 20], none⟩ : Collection Nat Nat).concat
              [])._keyArray = none) :=
  ⟨by decide, concat_nil_is_clone _ (by decide)⟩

theorem entries_foldl_filter_set (l : List (K × V)) (acc : Collection K V)
    (fn : V → K → Bool) (hl : KeysNodup l)
    (hdisj : ∀ kv ∈ l, acc.hasK kv.1 = false) :
    (l.foldl (fun a kv => if fn kv.2 kv.1 then a.set kv.1 kv.2 else a) acc).entries
      = acc.entries ++ l.filter (fun kv => fn kv.2 kv.1) := by
  induction l generalizing acc with
  | nil => simp
  | cons x t ih =>
      rw [KeysNodup, List.map_cons, List.nodup_cons] at hl
      have hxs : acc.hasK x.1 = false := hdisj x (List.mem_cons_self x t)
      have hdisj2 : ∀ kv ∈ t, (acc.set x.1 x.2).hasK kv.1 = false := by
        intro kv hkv
        rw [hasK_set hxs]
        have h1 : acc.hasK kv.1 = false := hdisj kv (List.mem_cons_of_mem x hkv)
        have h2 : x.1 ≠ kv.1 := by
          intro hcontra
          exact hl.1 (hcontra ▸ List.mem_map.mpr ⟨kv, hkv, rfl⟩)
        simp [h1, h2]
      rw [List.foldl_cons]
      by_cases hfn : fn x.2 x.1 = true
      · rw [if_pos hfn, ih (acc.set x.1 x.2) hl.2 hdisj2,
          set_entries_of_not_has hxs x.2]
        simp [List.filter_cons, hfn]
      · rw [if_neg hfn,
          ih acc hl.2 (fun kv hkv => hdisj kv (List.mem_cons_of_mem x hkv))]
        simp [List.filter_cons, hfn]

theorem filterC_entries (s : Collection K V) (fn : V → K → Bool)
    (h : KeysNodup s.entries) :
    (s.filterC fn).entries = s.entries.filter (fun kv => fn kv.2 kv.1) := by
  unfold filterC
  rw [entries_foldl_filter_set s.entries (emptyC K V) fn h
    (fun kv _ => hasK_emptyC kv.1)]
  rfl

theorem keysNodup_filter {l : List (K × V)} (h : KeysNodup l) (p : K × V → Bool) :
    KeysNodup (l.filter p) :=
  h.sublist (List.Sublist.map Prod.fst (List.filter_sublist l))

/-- C6: `a.difference(b)` is a new collection whose entries are exactly
`b`'s entries with keys absent from `a`, followed by `a`'s entries with
keys absent from `b` (b-exclusive first, then a-exclusive, per the
`concat` order); on the spec's concrete example the result is
`{(4,"d"), (1,"a")}`. -/
theorem difference_spec (a b : Collection K V) (ha : KeysNodup a.entries)
    (hb : KeysNodup b.entries) :
    (a.difference b).entries =
      b.entries.filter (fun kv => !a.hasK kv.1) ++
        a.entries.filter (fun kv => !b.hasK kv.1) ∧
    (difference (⟨[(1, "a"), (2, "b"), (3, "c")], none, none⟩ : Collection Nat String)
        ⟨[(2, "x"), (3, "c"), (4, "d")], none, none⟩).entries =
      [(4, "d"), (1, "a")] := by
  refine ⟨?_, by decide⟩
  unfold difference concat
  rw [List.foldl_cons, List.foldl_nil]
  have hX : (b.filterC (fun _ k => !a.hasK k)).entries =
      b.entries.filter (fun kv => !a.hasK kv.1) := filterC_entries b _ hb
  have hY : (a.filterC (fun _ k => !b.hasK k)).entries =
      a.entries.filter (fun kv => !b.hasK kv.1) := filterC_entries a _ ha
  have hXN : KeysNodup (b.filterC (fun _ k => !a.hasK k)).entries := by
    rw [hX]
    exact keysNodup_filter hb _
  have hYN : KeysNodup (a.filterC (fun _ k => !b.hasK k)).entries := by
    rw [hY]
    exact keysNodup_filter ha _
  have hclone : (b.filterC (fun _ k => !a.hasK k)).clone.entries =
      (b.filterC (fun _ k => !a.hasK k)).entries := clone_entries hXN
  have hdisj : ∀ kv ∈ (a.filterC (fun _ k => !b.hasK k)).entries,
      (b.filterC (fun _ k => !a.hasK k)).clone.hasK kv.1 = false := by
    intro kv hkv
    rw [hY, List.mem_filter] at hkv
    have hbk : b.hasK kv.1 = false := by
      have := hkv.2
      simpa using this
    rw [hasK_false_iff]
    intro kv2 hkv2
    rw [hclone, hX, List.mem_filter] at hkv2
    intro hkeq
    have : b.hasK kv.1 = true := by
      rw [hasK_true_iff]
      exact ⟨kv2, hkv2.1, hkeq⟩
    rw [this] at hbk
    cases hbk
  rw [entries_foldl_set _ _ hYN hdisj, hclone, hX, hY]

/-- Witness for C6 at the spec's concrete example. -/
theorem difference_spec_witness :
    KeysNodup ([(1, "a"), (2, "b"), (3, "c")] : List (Nat × String)) ∧
      (difference (⟨[(1, "a"), (2, "b"), (3, "c")], none, none⟩ : Collection Nat String)
          ⟨[(2, "x"), (3, "c"), (4, "d")], none, none⟩).entries =
        [(4, "d"), (1, "a")] :=
  ⟨by decide,
    (difference_spec (⟨[(1, "a"), (2, "b"), (3, "c")], none, none⟩ : Collection Nat String)
      ⟨[(2, "x"), (3, "c"), (4, "d")], none, none⟩ (by decide) (by decide)).2⟩

theorem perm_orderedInsertB (le : α → α → Bool) (a : α) (l : List α) :
    List.Perm (orderedInsertB le a l) (a :: l) := by
  induction l with
  | nil => exact List.Perm.refl _
  | cons b t ih =>
      unfold orderedInsertB
      by_cases h : le a b = true
      · rw [if_pos h]
      · rw [if_neg h]
        exact (ih.cons b).trans (List.Perm.swap a b t)

theorem perm_insertionSortB (le : α → α → Bool) (l : List α) :
    List.Perm (insertionSortB le l) l := by
  induction l with
  | nil => exact List.Perm.refl _
  | cons a t ih =>
      exact (perm_orderedInsertB le a (insertionSortB le t)).trans (ih.cons a)

theorem mem_orderedInsertB (le : α → α → Bool) (a x : α) (l : List α) :
    x ∈ orderedInsertB le a l ↔ x = a ∨ x ∈ l := by
  rw [(perm_orderedInsertB le a l).mem_iff]
  exact List.mem_cons

theorem pairwise_orderedInsertB (le : α → α → Bool)
    (htot : ∀ a b, le a b = false → le b a = true)
    (htrans : ∀ a b c, le a b = true → le b c = true → le a c = true)
    (a : α) {l : List α} (h : List.Pairwise (fun x y => le x y = true) l) :
    List.Pairwise (fun x y => le x y = true) (orderedInsertB le a l) := by
  induction l with
  | nil => simp [orderedInsertB]
  | cons b t ih =>
      rw [List.pairwise_cons] at h
      unfold orderedInsertB
      by_cases hab : le a b = true
      · rw [if_pos hab]
        refine List.pairwise_cons.mpr ⟨?_, List.pairwise_cons.mpr h⟩
        intro c hc
        rcases List.mem_cons.mp hc with rfl | hct
        · exact hab
        · exact htrans a b c hab (h.1 c hct)
      · rw [if_neg hab]
        refine List.pairwise_cons.mpr ⟨?_, ih h.2⟩
        intro c hc
        rcases (mem_orderedInsertB le a c t).mp hc with hca | hct
        · rw [hca]
          exact htot a b (Bool.eq_false_iff.mpr hab)
        · exact h.1 c hct

theorem pairwise_insertionSortB (le : α → α → Bool)
    (htot : ∀ a b, le a b = false → le b a = true)
    (htrans : ∀ a b c, le a b = true → le b c = true → le a c = true)
    (l : List α) :
    List.Pairwise (fun x y => le x y = true) (insertionSortB le l) := by
  induction l with
  | nil => exact List.Pairwise.nil
  | cons a t ih => exact pairwise_orderedInsertB le htot htrans a ih

theorem filter_orderedInsertB {β : Type} [DecidableEq β] (le : α → α → Bool)
    (val : α → β) (hne : ∀ x y, le x y = false → val y ≠ val x)
    (a : α) (l : List α) (v : β) :
    (orderedInsertB le a l).filter (fun x => val x == v) =
      (if val a = v then [a] else []) ++ l.filter (fun x => val x == v) := by
  induction l with
  | nil =>
      by_cases hv : val a = v
      · simp [orderedInsertB, List.filter_cons, hv]
      · simp [orderedInsertB, List.filter_cons, hv]
  | cons b t ih =>
      unfold orderedInsertB
      by_cases hab : le a b = true
      · rw [if_pos hab]
        by_cases hv : val a = v
        · simp [List.filter_cons, hv]
        · simp [List.filter_cons, hv]
      · rw [if_neg hab]
        by_cases hv : val a = v
        · have hfalse : le a b = false := Bool.eq_false_iff.mpr hab
          have hb : val b ≠ v := by
            rw [← hv]
            exact hne a b hfalse
          simp [List.filter_cons, ih, hv, hb]
        · simp [List.filter_cons, ih, hv]

theorem filter_insertionSortB {β : Type} [DecidableEq β] (le : α → α → Bool)
    (val : α → β) (hne : ∀ x y, le x y = false → val y ≠ val x)
    (l : List α) (v : β) :
    (insertionSortB le l).filter (fun x => val x == v) =
      l.filter (fun x => val x == v) := by
  induction l with
  | nil => rfl
  | cons a t ih =>
      show (orderedInsertB le a (insertionSortB le t)).filter _ = _
      rw [filter_orderedInsertB le val hne a (insertionSortB le t) v, ih]
      by_cases hv : val a = v
      · simp [List.filter_cons, hv]
      · simp [List.filter_cons, hv]

theorem defaultCmp_le_iff [LinearOrder V] (x y : V) : defaultCmp x y ≤ 0 ↔ x ≤ y := by
  unfold defaultCmp
  split_ifs with h1 h2
  · constructor
    · intro hc
      exact absurd hc (by decide)
    · intro hxy
      exact absurd h1 (not_lt.mpr hxy)
  · constructor
    · intro _
      exact le_of_eq h2
    · intro _
      exact le_refl 0
  · constructor
    · intro _
      exact not_lt.mp h1
    · intro _
      decide

/-- C7: `sort()` with the default comparator reorders the receiver into
a stable ascending value order — the result is a permutation of the
entries, pairwise sorted by value, and every value class keeps its
relative insertion order (stability as a filter identity) — rebuilds the
storage with both snapshots invalidated, and on the spec's concrete
example `{(1,3),(2,1),(3,1)}` yields `[(2,1),(3,1),(1,3)]` (both value-1
entries first, key 2 before key 3). -/
theorem sort_default_spec [LinearOrder V] (s : Collection K V) :
    List.Perm s.sortDefault.entries s.entries ∧
    List.Pairwise (fun x y : K × V => x.2 ≤ y.2) s.sortDefault.entries ∧
    (∀ v : V, s.sortDefault.entries.filter (fun kv => kv.2 == v) =
        s.entries.filter (fun kv => kv.2 == v)) ∧
    s.sortDefault._array = none ∧ s.sortDefault._keyArray = none ∧
    (sortDefault (⟨[(1, 3), (2, 1), (3, 1)], none, none⟩ : Collection Nat Nat)).entries
      = [(2, 1), (3, 1), (1, 3)] := by
  refine ⟨?_, ?_, ?_, rfl, rfl, by decide⟩
  · exact perm_insertionSortB _ s.entries
  · have htot : ∀ a b : K × V,
        (fun a b : K × V => decide (defaultCmp a.2 b.2 ≤ 0)) a b = false →
          (fun a b : K × V => decide (defaultCmp a.2 b.2 ≤ 0)) b a = true := by
      intro a b hab
      simp only [decide_eq_false_iff_not, defaultCmp_le_iff] at hab
      simp only [decide_eq_true_eq, defaultCmp_le_iff]
      exact le_of_not_le hab
    have htrans : ∀ a b c : K × V,
        (fun a b : K × V => decide (defaultCmp a.2 b.2 ≤ 0)) a b = true →
          (fun a b : K × V => decide (defaultCmp a.2 b.2 ≤ 0)) b c = true →
            (fun a b : K × V => decide (defaultCmp a.2 b.2 ≤ 0)) a c = true := by
      intro a b c h1 h2
      simp only [decide_eq_true_eq, defaultCmp_le_iff] at h1 h2 ⊢
      exact le_trans h1 h2
    have hp := pairwise_insertionSortB
      (fun a b : K × V => decide (defaultCmp a.2 b.2 ≤ 0)) htot htrans s.entries
    exact hp.imp (fun hxy => by
      simpa only [decide_eq_true_eq, defaultCmp_le_iff] using hxy)
  · intro v
    have hne : ∀ x y : K × V,
        (fun a b : K × V => decide (defaultCmp a.2 b.2 ≤ 0)) x y = false →
          (fun kv : K × V => kv.2) y ≠ (fun kv : K × V => kv.2) x := by
      intro x y hxy
      simp only [decide_eq_false_iff_not, defaultCmp_le_iff] at hxy
      exact ne_of_lt (lt_of_not_le hxy)
    exact filter_insertionSortB
      (fun a b : K × V => decide (defaultCmp a.2 b.2 ≤ 0))
      (fun kv : K × V => kv.2) hne s.entries v

theorem length_sample (rand : Nat → Nat) (t n : Nat) (l : List α)
    (h : n ≤ l.length) : (sample rand t n l).length = n := by
  induction n generalizing t l with
  | zero => rfl
  | succ m ih =>
      have hpos : 0 < l.length := lt_of_lt_of_le (Nat.succ_pos m) h
      unfold sample
      rw [dif_pos hpos]
      have hlen : (l.eraseIdx (rand t % l.length)).length = l.length - 1 := by
        rw [List.length_eraseIdx]
        simp [Nat.mod_lt _ hpos]
      simp only [List.length_cons]
      rw [ih (t + 1) (l.eraseIdx (rand t % l.length)) (by rw [hlen]; omega)]

theorem get_cons_eraseIdx_perm (l : List α) (i : Fin l.length) :
    List.Perm (l.get i :: l.eraseIdx i.1) l := by
  induction l with
  | nil => exact absurd i.2 (by simp)
  | cons a t ih =>
      rcases i with ⟨j, hj⟩
      cases j with
      | zero => exact List.Perm.refl _
      | succ m =>
          have hm : m < t.length := Nat.lt_of_succ_lt_succ hj
          show List.Perm (t.get ⟨m, hm⟩ :: a :: t.eraseIdx m) (a :: t)
          exact (List.Perm.swap a (t.get ⟨m, hm⟩) (t.eraseIdx m)).trans
            ((ih ⟨m, hm⟩).cons a)

theorem subperm_sample (rand : Nat → Nat) (t n : Nat) (l : List α) :
    List.Subperm (sample rand t n l) l := by
  induction n generalizing t l with
  | zero => exact List.nil_subperm
  | succ m ih =>
      unfold sample
      by_cases hpos : 0 < l.length
      · rw [dif_pos hpos]
        have h2 := (List.subperm_cons
          (l.get ⟨rand t % l.length, Nat.mod_lt _ hpos⟩)).mpr
          (ih (t + 1) (l.eraseIdx (rand t % l.length)))
        exact h2.trans
          (get_cons_eraseIdx_perm l ⟨rand t % l.length, Nat.mod_lt _ hpos⟩).subperm
      · rw [dif_neg hpos]
        exact List.nil_subperm

theorem nodup_of_subperm {l₁ l₂ : List α} (h : List.Subperm l₁ l₂)
    (h2 : l₂.Nodup) : l₁.Nodup := by
  obtain ⟨m, hp, hs⟩ := h
  exact hp.nodup_iff.mp (h2.sublist hs)

theorem random_eq (s : Collection K V) (rand : Nat → Nat) (n : Nat) :
    s.random rand n =
      if s.array.2.length = 0 ∨ n = 0 then (s.array.1, [])
      else (s.array.1, sample rand 0 (min n s.array.2.length) s.array.2) :=
  rfl

theorem randomKey_eq (s : Collection K V) (rand : Nat → Nat) (n : Nat) :
    s.randomKey rand n =
      if s.keyArray.2.length = 0 ∨ n = 0 then (s.keyArray.1, [])
      else (s.keyArray.1, sample rand 0 (min n s.keyArray.2.length) s.keyArray.2) :=
  rfl

/-- C4 (amended): for every coherent collection of size `m ≥ n` and every
in-range pick stream, `random(n)` returns exactly `n` values drawn
without replacement from the value snapshot — the result is a
sub-permutation of the values, so every returned element is a member of
the collection, each entry is used at most once, and the returned values
are pairwise distinct whenever the collection's values are pairwise
distinct — and it does not mutate the collection's entries (size and
order) and leaves the caches coherent; symmetrically for `randomKey(n)`
over keys (which are always pairwise distinct in a real map state). -/
theorem random_sample_spec (s : Collection K V) (rand : Nat → Nat) (n : Nat)
    (hc : Coherent s) (hn : n ≤ s.size) :
    ((s.random rand n).2.length = n ∧
      List.Subperm (s.random rand n).2 s.values ∧
      (∀ v ∈ (s.random rand n).2, v ∈ s.values) ∧
      (s.values.Nodup → (s.random rand n).2.Nodup) ∧
      (s.random rand n).1.entries = s.entries ∧
      Coherent (s.random rand n).1) ∧
    ((s.randomKey rand n).2.length = n ∧
      List.Subperm (s.randomKey rand n).2 s.keysList ∧
      (∀ k ∈ (s.randomKey rand n).2, k ∈ s.keysList) ∧
      (s.keysList.Nodup → (s.randomKey rand n).2.Nodup) ∧
      (s.randomKey rand n).1.entries = s.entries ∧
      Coherent (s.randomKey rand n).1) := by
  have harr : s.array.2 = s.values := array_snd_of_coherent hc.1
  have hkarr : s.keyArray.2 = s.keysList := keyArray_snd_of_coherent hc.2
  have hvlen : s.values.length = s.size := by simp [values, size]
  have hklen : s.keysList.length = s.size := by simp [keysList, size]
  constructor
  · rw [random_eq]
    by_cases h0 : s.array.2.length = 0 ∨ n = 0
    · have hn0 : n = 0 := by
        rcases h0 with h0 | h0
        · rw [harr, hvlen] at h0
          omega
        · exact h0
      rw [if_pos h0]
      refine ⟨by simp [hn0], List.nil_subperm, by simp, by simp,
        array_fst_entries s, coherent_array_fst hc⟩
    · rw [if_neg h0]
      push_neg at h0
      have hmin : min n s.array.2.length = n := by
        rw [harr, hvlen]
        exact Nat.min_eq_left hn
      have hsp : List.Subperm (sample rand 0 (min n s.array.2.length) s.array.2)
          s.values := by
        rw [harr]
        exact subperm_sample rand 0 _ s.values
      refine ⟨?_, hsp, fun v hv => hsp.subset hv,
        fun hnd => nodup_of_subperm hsp hnd, array_fst_entries s,
        coherent_array_fst hc⟩
      rw [hmin, harr]
      exact length_sample rand 0 n s.values (by rw [hvlen]; exact hn)
  · rw [randomKey_eq]
    by_cases h0 : s.keyArray.2.length = 0 ∨ n = 0
    · have hn0 : n = 0 := by
        rcases h0 with h0 | h0
        · rw [hkarr, hklen] at h0
          omega
        · exact h0
      rw [if_pos h0]
      refine ⟨by simp [hn0], List.nil_subperm, by simp, by simp,
        keyArray_fst_entries s, coherent_keyArray_fst hc⟩
    · rw [if_neg h0]
      push_neg at h0
      have hmin : min n s.keyArray.2.length = n := by
        rw [hkarr, hklen]
        exact Nat.min_eq_left hn
      have hsp : List.Subperm (sample rand 0 (min n s.keyArray.2.length) s.keyArray.2)
          s.keysList := by
        rw [hkarr]
        exact subperm_sample rand 0 _ s.keysList
      refine ⟨?_, hsp, fun k hk => hsp.subset hk,
        fun hnd => nodup_of_subperm hsp hnd, keyArray_fst_entries s,
        coherent_keyArray_fst hc⟩
      rw [hmin, hkarr]
      exact length_sample rand 0 n s.keysList (by rw [hklen]; exact hn)

/-- C4 counterexample: on `{(1,0),(2,0)}` — size 2 ≥ n = 2 — `random(2)`
returns `[0, 0]`: two values that are NOT pairwise distinct, because
sampling without replacement is over entries, not values, and this
collection holds the same value twice.  The claim's "returns n distinct
values" is therefore false as stated. -/
theorem random_values_not_distinct :
    2 ≤ (⟨[(1, 0), (2, 0)], none, none⟩ : Collection Nat Nat).size ∧
      ((⟨[(1, 0), (2, 0)], none, none⟩ : Collection Nat Nat).random
          (fun _ => 0) 2).2 = [0, 0] ∧
      ¬ ((⟨[(1, 0), (2, 0)], none, none⟩ : Collection Nat Nat).random
          (fun _ => 0) 2).2.Nodup := by
  refine ⟨by decide, by decide, by decide⟩

/-- Witness for C4 (amended) at a two-entry collection with `n = 2`. -/
theorem random_sample_spec_witness :
    Coherent (⟨[(1, 10), (2, 20)], none, none⟩ : Collection Nat Nat) ∧
      2 ≤ (⟨[(1, 10), (2, 20)], none, none⟩ : Collection Nat Nat).size ∧
      ((((⟨[(1, 10), (2, 20)], none, none⟩ : Collection Nat Nat).random (fun t => t) 2).2.length = 2 ∧
        List.Subperm ((⟨[(1, 10), (2, 20)], none, none⟩ : Collection Nat Nat).random (fun t => t) 2).2 (⟨[(1, 10), (2, 20)], none, none⟩ : Collection Nat Nat).values ∧
        (∀ v ∈ ((⟨[(1, 10), (2, 20)], none, none⟩ : Collection Nat Nat).random (fun t => t) 2).2, v ∈ (⟨[(1, 10), (2, 20)], none, none⟩ : Collection Nat Nat).values) ∧
        ((⟨[(1, 10), (2, 20)], none, none⟩ : Collection Nat Nat).values.Nodup → ((⟨[(1, 10), (2, 20)], none, none⟩ : Collection Nat Nat).random (fun t => t) 2).2.Nodup) ∧
        ((⟨[(1, 10), (2, 20)], none, none⟩ : Collection Nat Nat).random (fun t => t) 2).1.entries = (⟨[(1, 10), (2, 20)], none, none⟩ : Collection Nat Nat).entries ∧
        Coherent ((⟨[(1, 10), (2, 20)], none, none⟩ : Collection Nat Nat).random (fun t => t) 2).1) ∧
      (((⟨[(1, 10), (2, 20)], none, none⟩ : Collection Nat Nat).randomKey (fun t => t) 2).2.length = 2 ∧
        List.Subperm ((⟨[(1, 10), (2, 20)], none, none⟩ : Collection Nat Nat).randomKey (fun t => t) 2).2 (⟨[(1, 10), (2, 20)], none, none⟩ : Collection Nat Nat).keysList ∧
        (∀ k ∈ ((⟨[(1, 10), (2, 20)], none, none⟩ : Collection Nat Nat).randomKey (fun t => t) 2).2, k ∈ (⟨[(1, 10), (2, 20)], none, none⟩ : Collection Nat Nat).keysList) ∧
        ((⟨[(1, 10), (2, 20)], none, none⟩ : Collection Nat Nat).keysList.Nodup → ((⟨[(1, 10), (2, 20)], none, none⟩ : Collection Nat Nat).randomKey (fun t => t) 2).2.Nodup) ∧
        ((⟨[(1, 10), (2, 20)], none, none⟩ : Collection Nat Nat).randomKey (fun t => t) 2).1.entries = (⟨[(1, 10), (2, 20)], none, none⟩ : Collection Nat Nat).entries ∧
        Coherent ((⟨[(1, 10), (2, 20)], none, none⟩ : Collection Nat Nat).randomKey (fun t => t) 2).1)) := by
  have hc : Coherent (⟨[(1, 10), (2, 20)], none, none⟩ : Collection Nat Nat) :=
    ⟨coherentA_of_none rfl, coherentK_of_none rfl⟩
  exact ⟨hc, by decide, random_sample_spec (⟨[(1, 10), (2, 20)], none, none⟩ : Collection Nat Nat) (fun t => t) 2 hc (by decide)⟩

end Collection

end CollectionSpec
